import Mathlib

/-!
Shallow embedding of the brute-force TSP solver (src/tsp_solver.py).

Modelling choices:
* Python `dict` mapping vertex id to a 2-D point is an association list
  `Coords := List (ℕ × ℚ × ℚ)`; the dict invariant (unique keys) appears as a
  `Nodup` hypothesis on `keys`.  `sorted(coordinates.keys())` is
  `sortedKeys`, an insertion sort by `≤` (on nodup keys any sort of a linear
  order yields the same, unique sorted list).
* IEEE floats are idealised as real numbers; every finite float literal is a
  rational, so stored coordinates are `ℚ` while computed distances live in `ℝ`.
* `time.time()` is abstracted by an oracle `expired : ℕ → Bool`: `expired c`
  is the outcome of the comparison `time.time() - start_time > cutoff_time`
  at the moment the loop counter `checked` has value `c`.  The loop consults
  the oracle exactly where the source consults the clock.
* A failing dict lookup (Python `KeyError`) is `none`; functions that can
  raise return `Option`, and `none` propagates like an uncaught exception.
* `itertools.permutations` on the sorted remaining vertices is `permsLex`,
  which produces the permutations in the same lexicographic order, by fuel
  recursion on the list length.
-/

/-- Python dict `{vertex_id: (x, y)}` as an association list. -/
abbrev Coords := List (ℕ × ℚ × ℚ)

/-- The key list of the dict, in insertion order. -/
def keys (coordinates : Coords) : List ℕ :=
  coordinates.map Prod.fst

/-- Dict lookup `coordinates[v]`: first binding of `v`, `none` = `KeyError`. -/
def lookup : Coords → ℕ → Option (ℚ × ℚ)
  | [], _ => none
  | (k, c) :: rest, v => if v = k then some c else lookup rest v

/-- `euclidean_distance(coord1, coord2)`: `math.sqrt((x2-x1)**2 + (y2-y1)**2)`. -/
noncomputable def euclidean_distance (coord1 coord2 : ℚ × ℚ) : ℝ :=
  Real.sqrt (((coord2.1 : ℝ) - (coord1.1 : ℝ)) ^ 2 + ((coord2.2 : ℝ) - (coord1.2 : ℝ)) ^ 2)

/-- The `for i in range(len(tour) - 1)` accumulation in
`calculate_tour_distance`: sum of distances of consecutive pairs, failing
(`none`) on the first missing key. -/
noncomputable def consecutive_sum (coordinates : Coords) : List ℕ → Option ℝ
  | [] => some 0
  | [_] => some 0
  | a :: b :: rest => do
      let c1 ← lookup coordinates a
      let c2 ← lookup coordinates b
      let s ← consecutive_sum coordinates (b :: rest)
      pure (euclidean_distance c1 c2 + s)

/-- `calculate_tour_distance(tour, coordinates)`: 0.0 for `len(tour) < 2`,
otherwise the consecutive sum plus the closing edge from the last city back
to the first.  `none` models a propagated `KeyError`. -/
noncomputable def calculate_tour_distance (tour : List ℕ) (coordinates : Coords) : Option ℝ :=
  match tour with
  | [] => some 0
  | [_] => some 0
  | a :: b :: rest => do
      let s ← consecutive_sum coordinates (a :: b :: rest)
      let clast ← lookup coordinates ((a :: b :: rest).getLast (by simp))
      let cfirst ← lookup coordinates a
      pure (s + euclidean_distance clast cfirst)

/-- Modelled from the words of the spec, for the refinement claim about
`tourLength`: "sums consecutive edge distances plus the closing edge from the
last vertex back to the first; for `len(tour) < 2` returns `0.0`", over a
total coordinate assignment `f`. -/
noncomputable def tourLength_spec (f : ℕ → ℚ × ℚ) (tour : List ℕ) : ℝ :=
  match tour with
  | [] => 0
  | [_] => 0
  | a :: b :: rest =>
      (List.zipWith (fun u v => euclidean_distance (f u) (f v))
        (a :: b :: rest) (b :: rest)).sum
      + euclidean_distance (f ((a :: b :: rest).getLast (by simp))) (f a)

/-- Total cyclic tour length over a total coordinate assignment: the sum of
edge lengths along `l` paired with its rotation by one.  Helper for the
rotation-invariance argument. -/
noncomputable def cyclicLength (f : ℕ → ℚ × ℚ) (l : List ℕ) : ℝ :=
  (List.zipWith (fun a b => euclidean_distance (f a) (f b)) l (l.rotate 1)).sum

/-- `itertools.permutations` over a list, in lexicographic order of positions
(hence of values, when the input is sorted): pick each element in turn as the
head and recurse on the rest.  The fuel is the list length. -/
def permsLex : ℕ → List ℕ → List (List ℕ)
  | 0, _ => [[]]
  | n + 1, l => l.flatMap (fun x => (permsLex n (l.erase x)).map (fun p => x :: p))

/-- `sorted(coordinates.keys())`. -/
def sortedKeys (coordinates : Coords) : List ℕ :=
  List.insertionSort (· ≤ ·) (keys coordinates)

/-- One incumbent update: replace the best pair exactly when the candidate is
strictly shorter (`if distance < best_distance`); a `none` incumbent is the
initial state where best_distance is infinite, which any candidate beats. -/
noncomputable def update_incumbent (best : Option (List ℕ × ℝ)) (tour : List ℕ) (distance : ℝ) :
    Option (List ℕ × ℝ) :=
  match best with
  | none => some (tour, distance)
  | some (t, b) => if distance < b then some (tour, distance) else some (t, b)

/-- The `for perm in permutations(remaining_vertices)` loop of
`brute_force_tsp`: `checked` is incremented, the clock is polled when
`checked == 1 or checked % 10000 == 0` (breaking if expired), otherwise the
candidate tour `[start_vertex] + perm` is evaluated and the incumbent
updated.  Outer `none` is a propagated `KeyError`; the inner option is the
incumbent. -/
noncomputable def bfLoop (coordinates : Coords) (start_vertex : ℕ) (expired : ℕ → Bool) :
    List (List ℕ) → ℕ → Option (List ℕ × ℝ) → Option (Option (List ℕ × ℝ))
  | [], _, best => some best
  | perm :: rest, checked, best =>
      let c := checked + 1
      if ((c == 1) || (c % 10000 == 0)) && expired c then
        some best
      else
        match calculate_tour_distance (start_vertex :: perm) coordinates with
        | none => none
        | some distance =>
            bfLoop coordinates start_vertex expired rest c
              (update_incumbent best (start_vertex :: perm) distance)

/-- The candidate tours the loop actually evaluates (those reached before a
time-check fires), in evaluation order. -/
def bfEvaluated (start_vertex : ℕ) (expired : ℕ → Bool) :
    List (List ℕ) → ℕ → List (List ℕ)
  | [], _ => []
  | perm :: rest, checked =>
      let c := checked + 1
      if ((c == 1) || (c % 10000 == 0)) && expired c then
        []
      else
        (start_vertex :: perm) :: bfEvaluated start_vertex expired rest c

/-- `brute_force_tsp(coordinates, cutoff_time)`: degenerate returns for 0 and
1 vertices, otherwise the anchored enumeration with the natural-order
fallback `[start_vertex] + remaining_vertices` when no candidate was ever
evaluated. -/
noncomputable def brute_force_tsp (coordinates : Coords) (expired : ℕ → Bool) :
    Option (List ℕ × ℝ) :=
  match sortedKeys coordinates with
  | [] => some ([], 0)
  | [v] => some ([v], 0)
  | start_vertex :: remaining_vertices => do
      let best ← bfLoop coordinates start_vertex expired
        (permsLex remaining_vertices.length remaining_vertices) 0 none
      match best with
      | some (best_tour, best_distance) => pure (best_tour, best_distance)
      | none => do
          let d ← calculate_tour_distance (start_vertex :: remaining_vertices) coordinates
          pure (start_vertex :: remaining_vertices, d)

/-- The total coordinate assignment induced by a coordinate map (junk value
off the key set); used to state the bridges between the fallible code
functions and total tour lengths. -/
def getCoord (coordinates : Coords) (v : ℕ) : ℚ × ℚ :=
  (lookup coordinates v).getD (0, 0)

theorem lookup_eq_none_iff (coordinates : Coords) (v : ℕ) :
    lookup coordinates v = none ↔ v ∉ keys coordinates := by
  induction coordinates with
  | nil => simp [lookup, keys]
  | cons kc rest ih =>
      obtain ⟨k, c⟩ := kc
      by_cases hv : v = k
      · subst hv
        simp [lookup, keys]
      · simp [lookup, keys, hv, ih]

theorem lookup_eq_some_getCoord (coordinates : Coords) (v : ℕ)
    (h : v ∈ keys coordinates) :
    lookup coordinates v = some (getCoord coordinates v) := by
  cases hl : lookup coordinates v with
  | none => exact absurd ((lookup_eq_none_iff coordinates v).mp hl) (by simpa using h)
  | some c => simp [getCoord, hl]

theorem euclidean_distance_self (p : ℚ × ℚ) : euclidean_distance p p = 0 := by
  simp [euclidean_distance]

/-- The consecutive-edges accumulation succeeds and computes the zipWith sum
whenever every tour id is a key. -/
theorem consecutive_sum_eq (coordinates : Coords) :
    ∀ l : List ℕ, (∀ v ∈ l, v ∈ keys coordinates) →
      consecutive_sum coordinates l =
        some ((List.zipWith
          (fun u v => euclidean_distance (getCoord coordinates u) (getCoord coordinates v))
          l l.tail).sum)
  | [] => by intro _; simp [consecutive_sum]
  | [a] => by intro _; simp [consecutive_sum]
  | a :: b :: rest => by
      intro h
      have ha : a ∈ keys coordinates := h a (by simp)
      have hb : b ∈ keys coordinates := h b (by simp)
      have hrest : ∀ v ∈ b :: rest, v ∈ keys coordinates := by
        intro v hv
        exact h v (List.mem_cons_of_mem a hv)
      have hrec := consecutive_sum_eq coordinates (b :: rest) hrest
      simp only [consecutive_sum, lookup_eq_some_getCoord coordinates a ha,
        lookup_eq_some_getCoord coordinates b hb, hrec, Option.bind_eq_bind,
        Option.some_bind]
      simp [List.zipWith]

/-- Bridge: on tours whose ids all lie in the key set,
`calculate_tour_distance` succeeds and returns the spec-level tour length. -/
theorem calculate_tour_distance_eq (coordinates : Coords) (tour : List ℕ)
    (h : ∀ v ∈ tour, v ∈ keys coordinates) :
    calculate_tour_distance tour coordinates =
      some (tourLength_spec (getCoord coordinates) tour) := by
  match tour with
  | [] => simp [calculate_tour_distance, tourLength_spec]
  | [a] => simp [calculate_tour_distance, tourLength_spec]
  | a :: b :: rest =>
      have hlast : (a :: b :: rest).getLast (by simp) ∈ keys coordinates :=
        h _ (List.getLast_mem _)
      have ha : a ∈ keys coordinates := h a (by simp)
      simp only [calculate_tour_distance, consecutive_sum_eq coordinates _ h,
        lookup_eq_some_getCoord coordinates _ hlast,
        lookup_eq_some_getCoord coordinates a ha, Option.bind_eq_bind,
        Option.some_bind, tourLength_spec, Option.pure_def, List.tail_cons]

theorem zipWith_tail_append (f : ℕ → ℕ → ℝ) :
    ∀ (l : List ℕ) (h : l ≠ []) (x : ℕ),
      List.zipWith f l (l.tail ++ [x]) =
        List.zipWith f l l.tail ++ [f (l.getLast h) x]
  | [a], _, x => by simp
  | a :: b :: t, _, x => by
      have := zipWith_tail_append f (b :: t) (by simp) x
      simp only [List.tail_cons] at this ⊢
      simp [List.zipWith, this, List.getLast]

/-- The spec-level tour length is the cyclic zipWith sum. -/
theorem tourLength_spec_eq_cyclicLength (f : ℕ → ℚ × ℚ) :
    ∀ l : List ℕ, tourLength_spec f l = cyclicLength f l
  | [] => by simp [tourLength_spec, cyclicLength]
  | [a] => by
      simp [tourLength_spec, cyclicLength, euclidean_distance_self]
  | a :: b :: t => by
      have hz := zipWith_tail_append
        (fun u v => euclidean_distance (f u) (f v)) (a :: b :: t) (by simp) a
      simp only [List.tail_cons, List.cons_append] at hz
      simp only [tourLength_spec, cyclicLength, List.rotate_cons_succ,
        List.rotate_zero, List.cons_append, hz, List.sum_append,
        List.sum_cons, List.sum_nil, add_zero]

/-- Cyclic tour length is invariant under rotation. -/
theorem cyclicLength_rotate (f : ℕ → ℚ × ℚ) (l : List ℕ) (n : ℕ) :
    cyclicLength f (l.rotate n) = cyclicLength f l := by
  unfold cyclicLength
  have h1 : (l.rotate n).rotate 1 = (l.rotate 1).rotate n := by
    rw [List.rotate_rotate, List.rotate_rotate, Nat.add_comm]
  rw [h1, ← List.zipWith_rotate_distrib _ _ _ _ (by simp)]
  exact (List.rotate_perm _ n).sum_eq

/-- With fuel equal to the list length, `permsLex` generates exactly the
permutations of the list. -/
theorem mem_permsLex : ∀ (n : ℕ) (l p : List ℕ), l.length = n →
    (p ∈ permsLex n l ↔ p.Perm l)
  | 0, l, p => by
      intro hl
      have : l = [] := List.eq_nil_of_length_eq_zero hl
      subst this
      simp [permsLex, List.perm_nil]
  | n + 1, l, p => by
      intro hl
      simp only [permsLex, List.mem_flatMap, List.mem_map]
      constructor
      · rintro ⟨x, hx, q, hq, rfl⟩
        have hlen : (l.erase x).length = n := by
          rw [List.length_erase_of_mem hx, hl]; omega
        have hq' : q.Perm (l.erase x) := (mem_permsLex n (l.erase x) q hlen).mp hq
        exact (hq'.cons x).trans (List.perm_cons_erase hx).symm
      · intro hp
        have hple : p.length = n + 1 := by rw [hp.length_eq, hl]
        cases p with
        | nil => simp at hple
        | cons x q =>
            have hx : x ∈ l := hp.mem_iff.mp (by simp)
            have hq' : q.Perm (l.erase x) := (List.cons_perm_iff_perm_erase.mp hp).2
            have hlen : (l.erase x).length = n := by
              rw [List.length_erase_of_mem hx, hl]; omega
            exact ⟨x, hx, q, (mem_permsLex n (l.erase x) q hlen).mpr hq', rfl⟩

theorem sum_map_const_of_eq {h : ℕ → ℕ} {k : ℕ} :
    ∀ l : List ℕ, (∀ x ∈ l, h x = k) → (l.map h).sum = l.length * k
  | [] => by simp
  | x :: t => by
      intro hx
      have ht := sum_map_const_of_eq t (fun y hy => hx y (List.mem_cons_of_mem x hy))
      simp [ht, hx x (by simp), Nat.succ_mul, Nat.add_comm]

/-- With fuel equal to the list length, `permsLex` produces `n!` orderings. -/
theorem length_permsLex : ∀ (n : ℕ) (l : List ℕ), l.length = n →
    (permsLex n l).length = Nat.factorial n
  | 0, l => by intro _; simp [permsLex, Nat.factorial]
  | n + 1, l => by
      intro hl
      have hlen : ∀ x ∈ l, ((permsLex n (l.erase x)).map (fun p => x :: p)).length
          = Nat.factorial n := by
        intro x hx
        have : (l.erase x).length = n := by
          rw [List.length_erase_of_mem hx, hl]; omega
        simp [length_permsLex n (l.erase x) this]
      simp only [permsLex, List.flatMap, List.length_flatten, List.map_map,
        Function.comp_def]
      rw [sum_map_const_of_eq l (fun x hx => hlen x hx), hl]
      simp [Nat.factorial, Nat.mul_comm]

theorem sortedKeys_perm (coordinates : Coords) :
    (sortedKeys coordinates).Perm (keys coordinates) :=
  List.perm_insertionSort _ _

theorem sortedKeys_sorted (coordinates : Coords) :
    List.Sorted (· ≤ ·) (sortedKeys coordinates) :=
  List.sorted_insertionSort _ _

theorem update_incumbent_isSome (best : Option (List ℕ × ℝ)) (tour : List ℕ) (d : ℝ) :
    ∃ t' d', update_incumbent best tour d = some (t', d') := by
  match best with
  | none => exact ⟨tour, d, rfl⟩
  | some (t, b) =>
      by_cases h : d < b
      · exact ⟨tour, d, by simp [update_incumbent, h]⟩
      · exact ⟨t, b, by simp [update_incumbent, h]⟩

/-- Any result the loop hands back is either the incumbent it started from or
a candidate tour built from one of the supplied orderings, carrying its own
computed distance. -/
theorem bfLoop_result (coordinates : Coords) (start_vertex : ℕ) (expired : ℕ → Bool) :
    ∀ (perms : List (List ℕ)) (checked : ℕ) (best r : Option (List ℕ × ℝ)),
      bfLoop coordinates start_vertex expired perms checked best = some r →
      r = best ∨ ∃ p ∈ perms, ∃ d, r = some (start_vertex :: p, d) ∧
        calculate_tour_distance (start_vertex :: p) coordinates = some d
  | [], checked, best, r => by
      intro h
      simp only [bfLoop, Option.some.injEq] at h
      exact Or.inl h.symm
  | perm :: rest, checked, best, r => by
      intro h
      simp only [bfLoop] at h
      cases hc : (((checked + 1) == 1) || ((checked + 1) % 10000 == 0))
          && expired (checked + 1) with
      | true =>
          rw [hc] at h
          simp only [if_true, Option.some.injEq] at h
          exact Or.inl h.symm
      | false =>
          rw [hc] at h
          simp only [Bool.false_eq_true, if_false] at h
          cases hcd : calculate_tour_distance (start_vertex :: perm) coordinates with
          | none => rw [hcd] at h; exact absurd h (by simp)
          | some distance =>
              rw [hcd] at h
              have := bfLoop_result coordinates start_vertex expired rest (checked + 1)
                (update_incumbent best (start_vertex :: perm) distance) r h
              rcases this with heq | ⟨p, hp, d, hd, hcalc⟩
              · rcases best with _ | ⟨t, b⟩
                · exact Or.inr ⟨perm, by simp, distance, by simp [update_incumbent] at heq; simp [heq], hcd⟩
                · by_cases hlt : distance < b
                  · refine Or.inr ⟨perm, by simp, distance, ?_, hcd⟩
                    simp [update_incumbent, hlt] at heq
                    simp [heq]
                  · simp only [update_incumbent, if_neg hlt] at heq
                    exact Or.inl heq
              · exact Or.inr ⟨p, List.mem_cons_of_mem perm hp, d, hd, hcalc⟩

/-- When every supplied ordering can be evaluated (all ids are keys), the
loop never raises: it always returns an incumbent state. -/
theorem bfLoop_isSome (coordinates : Coords) (start_vertex : ℕ) (expired : ℕ → Bool) :
    ∀ (perms : List (List ℕ)) (checked : ℕ) (best : Option (List ℕ × ℝ)),
      (∀ p ∈ perms, ∃ d, calculate_tour_distance (start_vertex :: p) coordinates = some d) →
      ∃ r, bfLoop coordinates start_vertex expired perms checked best = some r
  | [], checked, best => by
      intro _
      exact ⟨best, rfl⟩
  | perm :: rest, checked, best => by
      intro hev
      simp only [bfLoop]
      cases hc : (((checked + 1) == 1) || ((checked + 1) % 10000 == 0))
          && expired (checked + 1) with
      | true => exact ⟨best, by simp⟩
      | false =>
          simp only [Bool.false_eq_true, if_false]
          obtain ⟨d, hd⟩ := hev perm (by simp)
          rw [hd]
          exact bfLoop_isSome coordinates start_vertex expired rest (checked + 1)
            (update_incumbent best (start_vertex :: perm) d)
            (fun p hp => hev p (List.mem_cons_of_mem perm hp))

/-- Once the incumbent is set it is never cleared: from a `some` incumbent the
loop can only return a `some` incumbent. -/
theorem bfLoop_inner_isSome (coordinates : Coords) (start_vertex : ℕ) (expired : ℕ → Bool) :
    ∀ (perms : List (List ℕ)) (checked : ℕ) (t₀ : List ℕ) (d₀ : ℝ)
      (r : Option (List ℕ × ℝ)),
      bfLoop coordinates start_vertex expired perms checked (some (t₀, d₀)) = some r →
      ∃ t d, r = some (t, d)
  | [], checked, t₀, d₀, r => by
      intro h
      simp only [bfLoop, Option.some.injEq] at h
      exact ⟨t₀, d₀, h.symm⟩
  | perm :: rest, checked, t₀, d₀, r => by
      intro h
      simp only [bfLoop] at h
      cases hc : (((checked + 1) == 1) || ((checked + 1) % 10000 == 0))
          && expired (checked + 1) with
      | true =>
          rw [hc] at h
          simp only [if_true, Option.some.injEq] at h
          exact ⟨t₀, d₀, h.symm⟩
      | false =>
          rw [hc] at h
          simp only [Bool.false_eq_true, if_false] at h
          cases hcd : calculate_tour_distance (start_vertex :: perm) coordinates with
          | none => rw [hcd] at h; exact absurd h (by simp)
          | some distance =>
              rw [hcd] at h
              obtain ⟨t', d', hu⟩ :=
                update_incumbent_isSome (some (t₀, d₀)) (start_vertex :: perm) distance
              exact bfLoop_inner_isSome coordinates start_vertex expired rest
                (checked + 1) t' d' r (by rw [← hu]; exact h)

/-- The incumbent always carries the distance of its own tour, as computed by
`calculate_tour_distance`; preserved by the loop. -/
theorem bfLoop_inc_correct (coordinates : Coords) (start_vertex : ℕ) (expired : ℕ → Bool) :
    ∀ (perms : List (List ℕ)) (checked : ℕ) (best : Option (List ℕ × ℝ))
      (t : List ℕ) (d : ℝ),
      (∀ t₀ d₀, best = some (t₀, d₀) →
        calculate_tour_distance t₀ coordinates = some d₀) →
      bfLoop coordinates start_vertex expired perms checked best = some (some (t, d)) →
      calculate_tour_distance t coordinates = some d
  | [], checked, best, t, d => by
      intro hinv h
      simp only [bfLoop, Option.some.injEq] at h
      exact hinv t d h
  | perm :: rest, checked, best, t, d => by
      intro hinv h
      simp only [bfLoop] at h
      cases hc : (((checked + 1) == 1) || ((checked + 1) % 10000 == 0))
          && expired (checked + 1) with
      | true =>
          rw [hc] at h
          simp only [if_true, Option.some.injEq] at h
          exact hinv t d h
      | false =>
          rw [hc] at h
          simp only [Bool.false_eq_true, if_false] at h
          cases hcd : calculate_tour_distance (start_vertex :: perm) coordinates with
          | none => rw [hcd] at h; exact absurd h (by simp)
          | some distance =>
              rw [hcd] at h
              refine bfLoop_inc_correct coordinates start_vertex expired rest
                (checked + 1) _ t d ?_ h
              intro t₀ d₀ hu
              rcases best with _ | ⟨t₁, b₁⟩
              · simp only [update_incumbent, Option.some.injEq, Prod.mk.injEq] at hu
                rw [← hu.1, ← hu.2]
                exact hcd
              · by_cases hlt : distance < b₁
                · simp only [update_incumbent, if_pos hlt, Option.some.injEq,
                    Prod.mk.injEq] at hu
                  rw [← hu.1, ← hu.2]
                  exact hcd
                · simp only [update_incumbent, if_neg hlt, Option.some.injEq,
                    Prod.mk.injEq] at hu
                  refine hinv t₀ d₀ ?_
                  rw [← hu.1, ← hu.2]

/-- Monotonic incumbent: whatever incumbent the loop returns is no longer
than the incumbent it started from and no longer than any candidate it
actually evaluated. -/
theorem bfLoop_min (coordinates : Coords) (start_vertex : ℕ) (expired : ℕ → Bool) :
    ∀ (perms : List (List ℕ)) (checked : ℕ) (best : Option (List ℕ × ℝ))
      (t : List ℕ) (d : ℝ),
      bfLoop coordinates start_vertex expired perms checked best = some (some (t, d)) →
      (∀ t₀ d₀, best = some (t₀, d₀) → d ≤ d₀) ∧
      (∀ tour ∈ bfEvaluated start_vertex expired perms checked, ∀ dd,
        calculate_tour_distance tour coordinates = some dd → d ≤ dd)
  | [], checked, best, t, d => by
      intro h
      simp only [bfLoop, Option.some.injEq] at h
      constructor
      · intro t₀ d₀ h₀
        rw [h, Option.some.injEq, Prod.mk.injEq] at h₀
        rw [← h₀.2]
      · intro tour htour
        simp [bfEvaluated] at htour
  | perm :: rest, checked, best, t, d => by
      intro h
      simp only [bfLoop] at h
      cases hc : (((checked + 1) == 1) || ((checked + 1) % 10000 == 0))
          && expired (checked + 1) with
      | true =>
          rw [hc] at h
          simp only [if_true, Option.some.injEq] at h
          constructor
          · intro t₀ d₀ h₀
            rw [h, Option.some.injEq, Prod.mk.injEq] at h₀
            rw [← h₀.2]
          · intro tour htour
            simp only [bfEvaluated, hc, if_true] at htour
            simp at htour
      | false =>
          rw [hc] at h
          simp only [Bool.false_eq_true, if_false] at h
          cases hcd : calculate_tour_distance (start_vertex :: perm) coordinates with
          | none => rw [hcd] at h; exact absurd h (by simp)
          | some distance =>
              rw [hcd] at h
              obtain ⟨IH1, IH2⟩ := bfLoop_min coordinates start_vertex expired rest
                (checked + 1) (update_incumbent best (start_vertex :: perm) distance)
                t d h
              have hdist : d ≤ distance := by
                rcases best with _ | ⟨t₁, b₁⟩
                · exact IH1 (start_vertex :: perm) distance rfl
                · by_cases hlt : distance < b₁
                  · exact IH1 (start_vertex :: perm) distance
                      (by simp [update_incumbent, hlt])
                  · exact le_trans
                      (IH1 t₁ b₁ (by simp [update_incumbent, hlt])) (not_lt.mp hlt)
              constructor
              · rintro t₀ d₀ rfl
                by_cases hlt : distance < d₀
                · exact le_trans
                    (IH1 (start_vertex :: perm) distance
                      (by simp [update_incumbent, hlt])) (le_of_lt hlt)
                · exact IH1 t₀ d₀ (by simp [update_incumbent, hlt])
              · intro tour htour dd hdd
                simp only [bfEvaluated, hc, Bool.false_eq_true, if_false] at htour
                rcases List.mem_cons.mp htour with heq | hmem
                · subst heq
                  rw [hcd, Option.some.injEq] at hdd
                  rw [← hdd]
                  exact hdist
                · exact IH2 tour hmem dd hdd

/-- First-found-wins: the incumbent the loop returns is either the unbeaten
initial incumbent, or an evaluated candidate that strictly beat the initial
incumbent and every candidate evaluated before it. -/
theorem bfLoop_first (coordinates : Coords) (start_vertex : ℕ) (expired : ℕ → Bool) :
    ∀ (perms : List (List ℕ)) (checked : ℕ) (best : Option (List ℕ × ℝ))
      (t : List ℕ) (d : ℝ),
      bfLoop coordinates start_vertex expired perms checked best = some (some (t, d)) →
      (best = some (t, d) ∧
        ∀ tour ∈ bfEvaluated start_vertex expired perms checked, ∀ du,
          calculate_tour_distance tour coordinates = some du → ¬ du < d)
      ∨ (∃ l₁ l₂, bfEvaluated start_vertex expired perms checked = l₁ ++ t :: l₂ ∧
          calculate_tour_distance t coordinates = some d ∧
          (∀ t₀ d₀, best = some (t₀, d₀) → d < d₀) ∧
          (∀ tour ∈ l₁, ∀ du,
            calculate_tour_distance tour coordinates = some du → d < du))
  | [], checked, best, t, d => by
      intro h
      simp only [bfLoop, Option.some.injEq] at h
      exact Or.inl ⟨h, by intro tour htour; simp [bfEvaluated] at htour⟩
  | perm :: rest, checked, best, t, d => by
      intro h
      simp only [bfLoop] at h
      cases hc : (((checked + 1) == 1) || ((checked + 1) % 10000 == 0))
          && expired (checked + 1) with
      | true =>
          rw [hc] at h
          simp only [if_true, Option.some.injEq] at h
          refine Or.inl ⟨h, ?_⟩
          intro tour htour
          simp only [bfEvaluated, hc, if_true] at htour
          simp at htour
      | false =>
          rw [hc] at h
          simp only [Bool.false_eq_true, if_false] at h
          cases hcd : calculate_tour_distance (start_vertex :: perm) coordinates with
          | none => rw [hcd] at h; exact absurd h (by simp)
          | some distance =>
              rw [hcd] at h
              have hEvalEq : bfEvaluated start_vertex expired (perm :: rest) checked =
                  (start_vertex :: perm) ::
                    bfEvaluated start_vertex expired rest (checked + 1) := by
                simp only [bfEvaluated, hc, Bool.false_eq_true, if_false]
              rcases bfLoop_first coordinates start_vertex expired rest
                  (checked + 1) (update_incumbent best (start_vertex :: perm) distance)
                  t d h with ⟨hinc, hrest⟩ | ⟨l₁, l₂, hEval, hcalc, hincb, hl₁⟩
              · rcases best with _ | ⟨t₁, b₁⟩
                · simp only [update_incumbent, Option.some.injEq, Prod.mk.injEq] at hinc
                  refine Or.inr ⟨[], bfEvaluated start_vertex expired rest (checked + 1),
                    ?_, ?_, ?_, ?_⟩
                  · rw [hEvalEq, hinc.1]
                    rfl
                  · rw [← hinc.1, ← hinc.2]
                    exact hcd
                  · rintro t₀ d₀ ⟨⟩
                  · intro tour htour
                    simp at htour
                · by_cases hlt : distance < b₁
                  · simp only [update_incumbent, if_pos hlt, Option.some.injEq,
                      Prod.mk.injEq] at hinc
                    refine Or.inr ⟨[], bfEvaluated start_vertex expired rest (checked + 1),
                      ?_, ?_, ?_, ?_⟩
                    · rw [hEvalEq, hinc.1]
                      rfl
                    · rw [← hinc.1, ← hinc.2]
                      exact hcd
                    · rintro t₀ d₀ h₀
                      rw [Option.some.injEq, Prod.mk.injEq] at h₀
                      rw [← hinc.2, ← h₀.2]
                      exact hlt
                    · intro tour htour
                      simp at htour
                  · simp only [update_incumbent, if_neg hlt, Option.some.injEq,
                      Prod.mk.injEq] at hinc
                    refine Or.inl ⟨by rw [hinc.1, hinc.2], ?_⟩
                    intro tour htour du hdu
                    rw [hEvalEq] at htour
                    rcases List.mem_cons.mp htour with heq | hmem
                    · subst heq
                      rw [hcd, Option.some.injEq] at hdu
                      rw [← hdu, ← hinc.2]
                      exact hlt
                    · exact hrest tour hmem du hdu
              · refine Or.inr ⟨(start_vertex :: perm) :: l₁, l₂, ?_, hcalc, ?_, ?_⟩
                · rw [hEvalEq, hEval]
                  rfl
                · rintro t₀ d₀ rfl
                  by_cases hlt : distance < d₀
                  · exact lt_trans
                      (hincb (start_vertex :: perm) distance
                        (by simp [update_incumbent, hlt])) hlt
                  · exact hincb t₀ d₀ (by simp [update_incumbent, hlt])
                · intro tour htour du hdu
                  rcases List.mem_cons.mp htour with heq | hmem
                  · subst heq
                    rw [hcd, Option.some.injEq] at hdu
                    rw [← hdu]
                    rcases best with _ | ⟨t₁, b₁⟩
                    · exact hincb (start_vertex :: perm) distance rfl
                    · by_cases hlt : distance < b₁
                      · exact hincb (start_vertex :: perm) distance
                          (by simp [update_incumbent, hlt])
                      · exact lt_of_lt_of_le
                          (hincb t₁ b₁ (by simp [update_incumbent, hlt]))
                          (not_lt.mp hlt)
                  · exact hl₁ tour hmem du hdu

/-- If the clock never reports the budget exceeded, every supplied ordering
is evaluated, in order. -/
theorem bfEvaluated_all (start_vertex : ℕ) (expired : ℕ → Bool)
    (hexp : ∀ c, expired c = false) :
    ∀ (perms : List (List ℕ)) (checked : ℕ),
      bfEvaluated start_vertex expired perms checked =
        perms.map (fun p => start_vertex :: p)
  | [], checked => by simp [bfEvaluated]
  | perm :: rest, checked => by
      simp only [bfEvaluated, hexp, Bool.and_false, Bool.false_eq_true, if_false,
        List.map_cons]
      rw [bfEvaluated_all start_vertex expired hexp rest (checked + 1)]

/-- A lookup failure on any evaluated candidate aborts the whole loop: the
error is propagated, not caught. -/
theorem bfLoop_propagates (coordinates : Coords) (start_vertex : ℕ) (expired : ℕ → Bool) :
    ∀ (perms : List (List ℕ)) (checked : ℕ) (best : Option (List ℕ × ℝ)),
      (∃ tour ∈ bfEvaluated start_vertex expired perms checked,
        calculate_tour_distance tour coordinates = none) →
      bfLoop coordinates start_vertex expired perms checked best = none
  | [], checked, best => by
      rintro ⟨tour, htour, _⟩
      simp [bfEvaluated] at htour
  | perm :: rest, checked, best => by
      rintro ⟨tour, htour, hfail⟩
      simp only [bfLoop]
      cases hc : (((checked + 1) == 1) || ((checked + 1) % 10000 == 0))
          && expired (checked + 1) with
      | true =>
          simp only [bfEvaluated, hc, if_true] at htour
          simp at htour
      | false =>
          simp only [Bool.false_eq_true, if_false]
          simp only [bfEvaluated, hc, Bool.false_eq_true, if_false] at htour
          rcases List.mem_cons.mp htour with heq | hmem
          · subst heq
            rw [hfail]
          · cases hcd : calculate_tour_distance (start_vertex :: perm) coordinates with
            | none => rfl
            | some distance =>
                exact bfLoop_propagates coordinates start_vertex expired rest
                  (checked + 1) _ ⟨tour, hmem, hfail⟩

/-- The loop evaluates no more candidates than there are orderings. -/
theorem bfEvaluated_length_le (start_vertex : ℕ) (expired : ℕ → Bool) :
    ∀ (perms : List (List ℕ)) (checked : ℕ),
      (bfEvaluated start_vertex expired perms checked).length ≤ perms.length
  | [], checked => by simp [bfEvaluated]
  | perm :: rest, checked => by
      simp only [bfEvaluated]
      cases hc : (((checked + 1) == 1) || ((checked + 1) % 10000 == 0))
          && expired (checked + 1) with
      | true => simp
      | false =>
          simp only [Bool.false_eq_true, if_false, List.length_cons]
          exact Nat.succ_le_succ (bfEvaluated_length_le start_vertex expired rest (checked + 1))

/-- If the clock reports the budget exceeded at a check index `c`, the loop
evaluates strictly fewer than `c` candidates past a counter below `c`: it
stops no later than that time-check. -/
theorem bfEvaluated_break_bound (start_vertex : ℕ) (expired : ℕ → Bool) (c : ℕ)
    (hcheck : c = 1 ∨ c % 10000 = 0) (hexp : expired c = true) :
    ∀ (perms : List (List ℕ)) (checked : ℕ), checked < c →
      (bfEvaluated start_vertex expired perms checked).length ≤ c - 1 - checked
  | [], checked => by
      intro _
      simp [bfEvaluated]
  | perm :: rest, checked => by
      intro hlt
      simp only [bfEvaluated]
      by_cases hkc : checked + 1 = c
      · have hb : ((c == 1) || (c % 10000 == 0)) = true := by
          rcases hcheck with h1 | h2
          · simp [h1]
          · simp [h2]
        rw [hkc, hb, hexp]
        simp
      · cases hc : (((checked + 1) == 1) || ((checked + 1) % 10000 == 0))
            && expired (checked + 1) with
        | true => simp
        | false =>
            simp only [Bool.false_eq_true, if_false, List.length_cons]
            have hlt' : checked + 1 < c := by omega
            have := bfEvaluated_break_bound start_vertex expired c hcheck hexp rest
              (checked + 1) hlt'
            omega

theorem mem_keys_of_mem_sortedKeys (coordinates : Coords) (v : ℕ)
    (h : v ∈ sortedKeys coordinates) : v ∈ keys coordinates :=
  (sortedKeys_perm coordinates).mem_iff.mp h

/-- Every anchored candidate built from an ordering of the remaining
vertices references only keys, so its distance computes. -/
theorem perms_evaluable (coordinates : Coords) (start r1 : ℕ) (rrest : List ℕ)
    (hsk : sortedKeys coordinates = start :: r1 :: rrest) :
    ∀ p ∈ permsLex (r1 :: rrest).length (r1 :: rrest),
      ∃ d, calculate_tour_distance (start :: p) coordinates = some d := by
  intro p hp
  have hperm : p.Perm (r1 :: rrest) := (mem_permsLex _ _ p rfl).mp hp
  have hmem : ∀ v ∈ start :: p, v ∈ keys coordinates := by
    intro v hv
    rcases List.mem_cons.mp hv with rfl | hv'
    · exact mem_keys_of_mem_sortedKeys coordinates v (by rw [hsk]; simp)
    · refine mem_keys_of_mem_sortedKeys coordinates v ?_
      rw [hsk]
      exact List.mem_cons_of_mem start (hperm.mem_iff.mp hv')
  exact ⟨_, calculate_tour_distance_eq coordinates (start :: p) hmem⟩

/-- From an empty incumbent, an empty incumbent comes back only if nothing
was evaluated. -/
theorem bfLoop_none_of_result_none (coordinates : Coords) (start_vertex : ℕ)
    (expired : ℕ → Bool) :
    ∀ (perms : List (List ℕ)) (checked : ℕ),
      bfLoop coordinates start_vertex expired perms checked none = some none →
      bfEvaluated start_vertex expired perms checked = []
  | [], checked => by
      intro _
      simp [bfEvaluated]
  | perm :: rest, checked => by
      intro h
      simp only [bfLoop] at h
      cases hc : (((checked + 1) == 1) || ((checked + 1) % 10000 == 0))
          && expired (checked + 1) with
      | true => simp only [bfEvaluated, hc, if_true]
      | false =>
          rw [hc] at h
          simp only [Bool.false_eq_true, if_false] at h
          cases hcd : calculate_tour_distance (start_vertex :: perm) coordinates with
          | none => rw [hcd] at h; exact absurd h (by simp)
          | some distance =>
              rw [hcd] at h
              obtain ⟨t, d, habs⟩ := bfLoop_inner_isSome coordinates start_vertex expired
                rest (checked + 1) (start_vertex :: perm) distance none h
              exact absurd habs (by simp)

/-- If the budget is already exhausted at the very first time-check, the loop
breaks with the incumbent still empty. -/
theorem bfLoop_break_first (coordinates : Coords) (start_vertex : ℕ)
    (expired : ℕ → Bool) (hexp : expired 1 = true) :
    ∀ perms : List (List ℕ),
      bfLoop coordinates start_vertex expired perms 0 none = some none
  | [] => rfl
  | perm :: rest => by
      simp [bfLoop, hexp]

/-- Unfolding of the solver in the multi-vertex case. -/
theorem brute_force_tsp_main (coordinates : Coords) (expired : ℕ → Bool)
    (start r1 : ℕ) (rrest : List ℕ)
    (hsk : sortedKeys coordinates = start :: r1 :: rrest) :
    brute_force_tsp coordinates expired =
      (bfLoop coordinates start expired
        (permsLex (r1 :: rrest).length (r1 :: rrest)) 0 none).bind
        (fun best => match best with
          | some (t, d) => some (t, d)
          | none => (calculate_tour_distance (start :: r1 :: rrest) coordinates).bind
              (fun d => some (start :: r1 :: rrest, d))) := by
  unfold brute_force_tsp
  rw [hsk]
  rfl

/-- Any tour returned by the solver in the multi-vertex case is the anchor
followed by some ordering of the remaining vertices. -/
theorem brute_force_result_shape (coordinates : Coords) (expired : ℕ → Bool)
    (start r1 : ℕ) (rrest : List ℕ)
    (hsk : sortedKeys coordinates = start :: r1 :: rrest)
    (t : List ℕ) (d : ℝ)
    (h : brute_force_tsp coordinates expired = some (t, d)) :
    ∃ q, t = start :: q ∧ q.Perm (r1 :: rrest) := by
  unfold brute_force_tsp at h
  rw [hsk] at h
  simp only [Option.bind_eq_bind] at h
  cases hbl : bfLoop coordinates start expired
      (permsLex (r1 :: rrest).length (r1 :: rrest)) 0 none with
  | none => rw [hbl] at h; exact absurd h (by simp)
  | some best =>
      rw [hbl] at h
      simp only [Option.some_bind] at h
      cases best with
      | some pair =>
          obtain ⟨tb, db⟩ := pair
          simp only [Option.pure_def, Option.some.injEq, Prod.mk.injEq] at h
          rcases bfLoop_result coordinates start expired _ 0 none (some (tb, db)) hbl
            with heq | ⟨p, hp, dd, hdd, _⟩
          · exact absurd heq (by simp)
          · rw [Option.some.injEq, Prod.mk.injEq] at hdd
            refine ⟨p, by rw [← h.1, hdd.1], (mem_permsLex _ _ p rfl).mp hp⟩
      | none =>
          cases hcv : calculate_tour_distance (start :: r1 :: rrest) coordinates with
          | none => rw [hcv] at h; exact absurd h (by simp)
          | some dv =>
              rw [hcv] at h
              simp only [Option.some_bind, Option.pure_def, Option.some.injEq,
                Prod.mk.injEq] at h
              exact ⟨r1 :: rrest, h.1.symm, List.Perm.refl _⟩

/-- For a non-empty coordinate map the solver always returns a pair whose
tour is a permutation of the sorted key list. -/
theorem brute_force_exists (coordinates : Coords) (expired : ℕ → Bool)
    (hne : keys coordinates ≠ []) :
    ∃ t d, brute_force_tsp coordinates expired = some (t, d) ∧
      t.Perm (keys coordinates) := by
  have hskp := sortedKeys_perm coordinates
  cases hsk : sortedKeys coordinates with
  | nil =>
      rw [hsk] at hskp
      exact absurd (hskp.symm.eq_nil) hne
  | cons start remaining =>
      cases remaining with
      | nil =>
          refine ⟨[start], 0, ?_, ?_⟩
          · unfold brute_force_tsp
            rw [hsk]
          · rw [hsk] at hskp
            exact hskp
      | cons r1 rrest =>
          have hev := perms_evaluable coordinates start r1 rrest hsk
          obtain ⟨r, hr⟩ := bfLoop_isSome coordinates start expired
            (permsLex (r1 :: rrest).length (r1 :: rrest)) 0 none hev
          have hperm_of : ∀ q, q.Perm (r1 :: rrest) →
              (start :: q).Perm (keys coordinates) := by
            intro q hq
            have h1 : (start :: q).Perm (start :: r1 :: rrest) := hq.cons start
            rw [← hsk] at h1
            exact h1.trans hskp
          cases r with
          | some pair =>
              obtain ⟨tb, db⟩ := pair
              refine ⟨tb, db, ?_, ?_⟩
              · rw [brute_force_tsp_main coordinates expired start r1 rrest hsk, hr]
                rfl
              · rcases bfLoop_result coordinates start expired _ 0 none
                  (some (tb, db)) hr with heq | ⟨p, hp, dd, hdd, _⟩
                · exact absurd heq (by simp)
                · rw [Option.some.injEq, Prod.mk.injEq] at hdd
                  rw [hdd.1]
                  exact hperm_of p ((mem_permsLex _ _ p rfl).mp hp)
          | none =>
              have hmem : ∀ v ∈ start :: r1 :: rrest, v ∈ keys coordinates := by
                intro v hv
                exact mem_keys_of_mem_sortedKeys coordinates v (by rw [hsk]; exact hv)
              have hcv := calculate_tour_distance_eq coordinates (start :: r1 :: rrest) hmem
              refine ⟨start :: r1 :: rrest,
                tourLength_spec (getCoord coordinates) (start :: r1 :: rrest), ?_, ?_⟩
              · rw [brute_force_tsp_main coordinates expired start r1 rrest hsk, hr]
                simp only [Option.some_bind]
                rw [hcv]
                rfl
              · exact hperm_of (r1 :: rrest) (List.Perm.refl _)

/-- Rotating any list containing `x` brings `x` to the front. -/
theorem exists_rotation_head (x : ℕ) (p : List ℕ) (hx : x ∈ p) :
    ∃ k q, p.rotate k = x :: q := by
  obtain ⟨s, t₂, rfl⟩ := List.append_of_mem hx
  refine ⟨s.length, t₂ ++ s, ?_⟩
  rw [List.rotate_eq_drop_append_take (by simp)]
  rw [List.drop_left, List.take_left]
  rfl

/-- A two-vertex demonstration instance. -/
def demoA : Coords := [(1, (0, 0)), (2, (1, 0))]

/-- A one-vertex demonstration instance. -/
def demoOne : Coords := [(7, (0, 0))]

/-- A clock that never reports the budget exceeded. -/
def neverExpired : ℕ → Bool := fun _ => false

/-- A clock that reports the budget exceeded from the start. -/
def alwaysExpired : ℕ → Bool := fun _ => true

theorem calculate_short (coordinates : Coords) (tour : List ℕ)
    (h : tour.length < 2) : calculate_tour_distance tour coordinates = some 0 := by
  cases tour with
  | nil => rfl
  | cons a t =>
      cases t with
      | nil => rfl
      | cons b t' =>
          rw [List.length_cons, List.length_cons] at h
          omega

theorem mem_keys_of_lookup_some (coordinates : Coords) (v : ℕ) (c : ℚ × ℚ)
    (h : lookup coordinates v = some c) : v ∈ keys coordinates := by
  by_contra hv
  rw [(lookup_eq_none_iff coordinates v).mpr hv] at h
  exact absurd h (by simp)

theorem consecutive_sum_some_mem (coordinates : Coords) :
    ∀ (l : List ℕ) (r : ℝ), consecutive_sum coordinates l = some r →
      2 ≤ l.length → ∀ v ∈ l, v ∈ keys coordinates
  | [] => by intro r _ hlen; simp at hlen
  | [a] => by intro r _ hlen; simp at hlen
  | a :: b :: t => by
      intro r h _ v hv
      simp only [consecutive_sum, Option.bind_eq_bind] at h
      cases hla : lookup coordinates a with
      | none => rw [hla] at h; exact absurd h (by simp)
      | some c1 =>
          rw [hla] at h
          cases hlb : lookup coordinates b with
          | none => rw [hlb] at h; exact absurd h (by simp)
          | some c2 =>
              rw [hlb] at h
              cases hrec : consecutive_sum coordinates (b :: t) with
              | none => rw [hrec] at h; exact absurd h (by simp)
              | some s =>
                  rcases List.mem_cons.mp hv with rfl | hv'
                  · exact mem_keys_of_lookup_some coordinates v c1 hla
                  · rcases List.mem_cons.mp hv' with rfl | hv''
                    · exact mem_keys_of_lookup_some coordinates v c2 hlb
                    · cases t with
                      | nil => simp at hv''
                      | cons w t' =>
                          exact consecutive_sum_some_mem coordinates (b :: w :: t') s
                            hrec (by simp) v (List.mem_cons_of_mem b hv'')

theorem calculate_some_mem (coordinates : Coords) (tour : List ℕ) (r : ℝ)
    (hlen : 2 ≤ tour.length) (h : calculate_tour_distance tour coordinates = some r) :
    ∀ v ∈ tour, v ∈ keys coordinates := by
  match tour, hlen with
  | a :: b :: t, _ =>
      simp only [calculate_tour_distance, Option.bind_eq_bind] at h
      cases hcs : consecutive_sum coordinates (a :: b :: t) with
      | none => rw [hcs] at h; exact absurd h (by simp)
      | some s =>
          exact consecutive_sum_some_mem coordinates (a :: b :: t) s hcs (by simp)

/-- C5: `tourLength` returns the sum of consecutive Euclidean edge distances
plus the closing edge from the last vertex back to the first whenever the
map contains all ids of the tour, and returns 0.0 for every tour of length
strictly less than 2. -/
theorem claim_C5_tourLength_formula (coordinates : Coords) (tour : List ℕ) :
    ((∀ v ∈ tour, v ∈ keys coordinates) →
      calculate_tour_distance tour coordinates =
        some (tourLength_spec (getCoord coordinates) tour)) ∧
    (tour.length < 2 → calculate_tour_distance tour coordinates = some 0) :=
  ⟨calculate_tour_distance_eq coordinates tour, calculate_short coordinates tour⟩

/-- Witness for C5 at a concrete two-vertex instance. -/
theorem claim_C5_tourLength_formula_witness :
    (∀ v ∈ [1, 2], v ∈ keys demoA) ∧
    calculate_tour_distance [1, 2] demoA =
      some (tourLength_spec (getCoord demoA) [1, 2]) :=
  ⟨by decide, (claim_C5_tourLength_formula demoA [1, 2]).1 (by decide)⟩

/-- C8 counterexample: a length-1 tour whose only id is absent from the map
is priced 0.0 with no failure, so "fails iff some id in the tour is absent"
is false as stated. -/
theorem claim_C8_counterexample :
    calculate_tour_distance [5] demoOne = some 0 ∧
    5 ∈ ([5] : List ℕ) ∧ 5 ∉ keys demoOne :=
  ⟨rfl, by decide, by decide⟩

/-- C8 (amended): for tours of length at least 2, `tourLength` fails exactly
when some id in the tour is absent from the map; tours shorter than 2 return
0.0 without performing any lookup; under the precondition that every tour id
is a key no error is raised; and a lookup failure on an evaluated candidate
aborts the search loop (propagated, not caught). -/
theorem claim_C8_keyerror_amended (coordinates : Coords) (tour : List ℕ) :
    (2 ≤ tour.length →
      (calculate_tour_distance tour coordinates = none ↔
        ∃ v ∈ tour, v ∉ keys coordinates)) ∧
    (tour.length < 2 → calculate_tour_distance tour coordinates = some 0) ∧
    ((∀ v ∈ tour, v ∈ keys coordinates) →
      ∃ d, calculate_tour_distance tour coordinates = some d) ∧
    (∀ (start_vertex : ℕ) (expired : ℕ → Bool) (perms : List (List ℕ))
      (checked : ℕ) (best : Option (List ℕ × ℝ)),
      (∃ u ∈ bfEvaluated start_vertex expired perms checked,
        calculate_tour_distance u coordinates = none) →
      bfLoop coordinates start_vertex expired perms checked best = none) := by
  refine ⟨?_, calculate_short coordinates tour, ?_, ?_⟩
  · intro hlen
    constructor
    · intro hnone
      by_contra hno
      push_neg at hno
      rw [calculate_tour_distance_eq coordinates tour hno] at hnone
      exact absurd hnone (by simp)
    · rintro ⟨v, hv, habs⟩
      cases hc : calculate_tour_distance tour coordinates with
      | none => rfl
      | some r => exact absurd (calculate_some_mem coordinates tour r hlen hc v hv) habs
  · intro hmem
    exact ⟨_, calculate_tour_distance_eq coordinates tour hmem⟩
  · intro s e perms checked best hex
    exact bfLoop_propagates coordinates s e perms checked best hex

/-- Witness for the amended C8: on an instance containing all tour ids the
distance computes. -/
theorem claim_C8_keyerror_amended_witness :
    (∀ v ∈ [1, 2], v ∈ keys demoA) ∧
    ∃ d, calculate_tour_distance [1, 2] demoA = some d :=
  ⟨by decide, (claim_C8_keyerror_amended demoA [1, 2]).2.2.1 (by decide)⟩

/-- C3: on every return path (degenerate, loop and fallback) the returned
distance equals `tourLength` of the returned tour over the same map. -/
theorem claim_C3_distance_matches_tour (coordinates : Coords) (expired : ℕ → Bool)
    (t : List ℕ) (d : ℝ)
    (h : brute_force_tsp coordinates expired = some (t, d)) :
    calculate_tour_distance t coordinates = some d := by
  cases hsk : sortedKeys coordinates with
  | nil =>
      unfold brute_force_tsp at h
      rw [hsk] at h
      simp only [Option.some.injEq, Prod.mk.injEq] at h
      rw [← h.1, ← h.2]
      rfl
  | cons start remaining =>
      cases remaining with
      | nil =>
          unfold brute_force_tsp at h
          rw [hsk] at h
          simp only [Option.some.injEq, Prod.mk.injEq] at h
          rw [← h.1, ← h.2]
          rfl
      | cons r1 rrest =>
          rw [brute_force_tsp_main coordinates expired start r1 rrest hsk] at h
          cases hbl : bfLoop coordinates start expired
              (permsLex (r1 :: rrest).length (r1 :: rrest)) 0 none with
          | none => rw [hbl] at h; exact absurd h (by simp)
          | some best =>
              rw [hbl] at h
              simp only [Option.some_bind] at h
              cases best with
              | some pair =>
                  obtain ⟨tb, db⟩ := pair
                  simp only [Option.some.injEq, Prod.mk.injEq] at h
                  rw [← h.1, ← h.2]
                  exact bfLoop_inc_correct coordinates start expired _ 0 none tb db
                    (by rintro t₀ d₀ ⟨⟩) hbl
              | none =>
                  cases hcv : calculate_tour_distance (start :: r1 :: rrest) coordinates with
                  | none => rw [hcv] at h; exact absurd h (by simp)
                  | some dv =>
                      rw [hcv] at h
                      simp only [Option.some_bind, Option.some.injEq, Prod.mk.injEq] at h
                      rw [← h.1, ← h.2]
                      exact hcv

/-- Witness for C3 on a one-vertex instance. -/
theorem claim_C3_distance_matches_tour_witness :
    brute_force_tsp demoOne neverExpired = some ([7], 0) ∧
    calculate_tour_distance [7] demoOne = some 0 :=
  ⟨rfl, claim_C3_distance_matches_tour demoOne neverExpired [7] 0 rfl⟩

/-- C2: for every non-empty coordinate map and every budget oracle the
returned tour is a duplicate-free permutation of exactly the keys of the map. -/
theorem claim_C2_tour_is_key_permutation (coordinates : Coords) (expired : ℕ → Bool)
    (hne : coordinates ≠ []) (hnd : (keys coordinates).Nodup) :
    ∃ t d, brute_force_tsp coordinates expired = some (t, d) ∧
      t.Perm (keys coordinates) ∧ t.Nodup := by
  have hkne : keys coordinates ≠ [] := by
    cases coordinates with
    | nil => exact absurd rfl hne
    | cons kc rest => simp [keys]
  obtain ⟨t, d, h, hp⟩ := brute_force_exists coordinates expired hkne
  exact ⟨t, d, h, hp, hp.nodup_iff.mpr hnd⟩

/-- Witness for C2 on a concrete two-vertex instance. -/
theorem claim_C2_tour_is_key_permutation_witness :
    demoA ≠ [] ∧ (keys demoA).Nodup ∧
    ∃ t d, brute_force_tsp demoA neverExpired = some (t, d) ∧
      t.Perm (keys demoA) ∧ t.Nodup :=
  ⟨by decide, by decide,
    claim_C2_tour_is_key_permutation demoA neverExpired (by decide) (by decide)⟩

/-- C4: when the budget is already exhausted at the first time-check, the
solver still returns the anchor followed by the remaining vertices in the
order of the vertex list, with its computed distance — never an empty tour
and never a failure. -/
theorem claim_C4_fallback_tour (coordinates : Coords) (expired : ℕ → Bool)
    (hne : coordinates ≠ []) (hexp : expired 1 = true) :
    ∃ d, brute_force_tsp coordinates expired = some (sortedKeys coordinates, d) ∧
      calculate_tour_distance (sortedKeys coordinates) coordinates = some d ∧
      sortedKeys coordinates ≠ [] := by
  have hkne : keys coordinates ≠ [] := by
    cases coordinates with
    | nil => exact absurd rfl hne
    | cons kc rest => simp [keys]
  cases hsk : sortedKeys coordinates with
  | nil =>
      have hskp := sortedKeys_perm coordinates
      rw [hsk] at hskp
      exact absurd hskp.symm.eq_nil hkne
  | cons start remaining =>
      cases remaining with
      | nil =>
          refine ⟨0, ?_, ?_, by simp⟩
          · unfold brute_force_tsp
            rw [hsk]
          · rfl
      | cons r1 rrest =>
          have hmem : ∀ v ∈ start :: r1 :: rrest, v ∈ keys coordinates := by
            intro v hv
            exact mem_keys_of_mem_sortedKeys coordinates v (by rw [hsk]; exact hv)
          have hcv := calculate_tour_distance_eq coordinates (start :: r1 :: rrest) hmem
          refine ⟨tourLength_spec (getCoord coordinates) (start :: r1 :: rrest),
            ?_, ?_, by simp⟩
          · rw [brute_force_tsp_main coordinates expired start r1 rrest hsk,
              bfLoop_break_first coordinates start expired hexp]
            simp only [Option.some_bind]
            rw [hcv]
            rfl
          · exact hcv

/-- Witness for C4: a zero budget on a two-vertex instance still returns the
complete sorted tour. -/
theorem claim_C4_fallback_tour_witness :
    demoA ≠ [] ∧
    ∃ d, brute_force_tsp demoA alwaysExpired = some (sortedKeys demoA, d) ∧
      calculate_tour_distance (sortedKeys demoA) demoA = some d ∧
      sortedKeys demoA ≠ [] :=
  ⟨by decide, claim_C4_fallback_tour demoA alwaysExpired (by decide) rfl⟩

/-- C10: with at least two vertices, whatever the budget oracle does, the
returned tour starts with the smallest key of the map. -/
theorem claim_C10_anchor_is_min_key (coordinates : Coords) (expired : ℕ → Bool)
    (hlen : 2 ≤ (keys coordinates).length) :
    ∃ t d m rest, brute_force_tsp coordinates expired = some (t, d) ∧
      t = m :: rest ∧ m ∈ keys coordinates ∧ ∀ k ∈ keys coordinates, m ≤ k := by
  have hkne : keys coordinates ≠ [] := by
    intro h0
    rw [h0] at hlen
    simp at hlen
  obtain ⟨t, d, h, hp⟩ := brute_force_exists coordinates expired hkne
  have hsklen : (sortedKeys coordinates).length = (keys coordinates).length :=
    (sortedKeys_perm coordinates).length_eq
  cases hsk : sortedKeys coordinates with
  | nil =>
      rw [hsk] at hsklen
      simp at hsklen
      omega
  | cons start remaining =>
      cases remaining with
      | nil =>
          rw [hsk] at hsklen
          simp at hsklen
          omega
      | cons r1 rrest =>
          obtain ⟨q, hq, _⟩ :=
            brute_force_result_shape coordinates expired start r1 rrest hsk t d h
          have hsorted := sortedKeys_sorted coordinates
          rw [hsk] at hsorted
          have hmin : ∀ b ∈ r1 :: rrest, start ≤ b := (List.sorted_cons.mp hsorted).1
          refine ⟨t, d, start, q, h, hq, ?_, ?_⟩
          · exact mem_keys_of_mem_sortedKeys coordinates start (by rw [hsk]; simp)
          · intro k hk
            have hks : k ∈ sortedKeys coordinates :=
              (sortedKeys_perm coordinates).mem_iff.mpr hk
            rw [hsk] at hks
            rcases List.mem_cons.mp hks with rfl | hks'
            · exact le_refl k
            · exact hmin k hks'

/-- Witness for C10 on a concrete two-vertex instance. -/
theorem claim_C10_anchor_is_min_key_witness :
    2 ≤ (keys demoA).length ∧
    ∃ t d m rest, brute_force_tsp demoA neverExpired = some (t, d) ∧
      t = m :: rest ∧ m ∈ keys demoA ∧ ∀ k ∈ keys demoA, m ≤ k :=
  ⟨by decide, claim_C10_anchor_is_min_key demoA neverExpired (by decide)⟩

/-- C9: the enumeration is finite — with fuel `n-1` the generator yields
exactly `(n-1)!` orderings, the loop evaluates no more candidates than there
are orderings, it stops before any check index at which the clock reports
the budget exceeded, and for a non-empty map a result pair is always
returned. -/
theorem claim_C9_search_terminates :
    (∀ l : List ℕ, (permsLex l.length l).length = Nat.factorial l.length) ∧
    (∀ (start_vertex : ℕ) (expired : ℕ → Bool) (perms : List (List ℕ)) (checked : ℕ),
      (bfEvaluated start_vertex expired perms checked).length ≤ perms.length) ∧
    (∀ (start_vertex : ℕ) (expired : ℕ → Bool) (c : ℕ), 0 < c →
      (c = 1 ∨ c % 10000 = 0) → expired c = true →
      ∀ perms : List (List ℕ),
        (bfEvaluated start_vertex expired perms 0).length < c) ∧
    (∀ (coordinates : Coords) (expired : ℕ → Bool), keys coordinates ≠ [] →
      ∃ r, brute_force_tsp coordinates expired = some r) := by
  refine ⟨fun l => length_permsLex l.length l rfl,
    fun s e perms k => bfEvaluated_length_le s e perms k, ?_, ?_⟩
  · intro s e c hc hcheck hexp perms
    have := bfEvaluated_break_bound s e c hcheck hexp perms 0 hc
    omega
  · intro coordinates expired hkne
    obtain ⟨t, d, h, _⟩ := brute_force_exists coordinates expired hkne
    exact ⟨(t, d), h⟩

/-- Witness for C9: with the budget exhausted at the first check, no
candidate at all is evaluated. -/
theorem claim_C9_search_terminates_witness :
    (bfEvaluated 1 alwaysExpired [[2]] 0).length < 1 :=
  claim_C9_search_terminates.2.2.1 1 alwaysExpired 1 (by decide) (Or.inl rfl) rfl [[2]]

/-- The distance of the unique candidate tour of `demoA`, in the exact shape
the evaluation produces. -/
noncomputable def demoDist : ℝ :=
  euclidean_distance (0, 0) (1, 0) + 0 + euclidean_distance (1, 0) (0, 0)

/-- C6: the incumbent the loop returns is no longer than any candidate it
evaluated; the incumbent is never removed by an update, and an update that is
not a strict improvement leaves the incumbent unchanged. -/
theorem claim_C6_monotonic_incumbent (coordinates : Coords) (start_vertex : ℕ)
    (expired : ℕ → Bool) (perms : List (List ℕ)) (t : List ℕ) (d : ℝ)
    (h : bfLoop coordinates start_vertex expired perms 0 none = some (some (t, d))) :
    (∀ tour ∈ bfEvaluated start_vertex expired perms 0, ∀ dd,
      calculate_tour_distance tour coordinates = some dd → d ≤ dd) ∧
    (∀ best tour dist, update_incumbent best tour dist ≠ none) ∧
    (∀ (t₀ : List ℕ) (d₀ dist : ℝ) (tour : List ℕ), ¬ dist < d₀ →
      update_incumbent (some (t₀, d₀)) tour dist = some (t₀, d₀)) := by
  refine ⟨(bfLoop_min coordinates start_vertex expired perms 0 none t d h).2, ?_, ?_⟩
  · intro best tour dist
    obtain ⟨t', d', h'⟩ := update_incumbent_isSome best tour dist
    simp [h']
  · intro t₀ d₀ dist tour hlt
    simp [update_incumbent, hlt]

/-- Witness for C6 on a concrete single-candidate run. -/
theorem claim_C6_monotonic_incumbent_witness :
    bfLoop demoA 1 neverExpired [[2]] 0 none = some (some ([1, 2], demoDist)) ∧
    (∀ tour ∈ bfEvaluated 1 neverExpired [[2]] 0, ∀ dd,
      calculate_tour_distance tour demoA = some dd → demoDist ≤ dd) :=
  ⟨rfl, (claim_C6_monotonic_incumbent demoA 1 neverExpired [[2]] [1, 2] demoDist rfl).1⟩

/-- C7: a candidate whose distance ties the incumbent does not replace it,
and the returned incumbent is an evaluated candidate that every earlier
evaluated candidate strictly exceeds (first-found-wins). -/
theorem claim_C7_first_found_wins (coordinates : Coords) (start_vertex : ℕ)
    (expired : ℕ → Bool) (perms : List (List ℕ)) (t : List ℕ) (d : ℝ)
    (h : bfLoop coordinates start_vertex expired perms 0 none = some (some (t, d))) :
    (∀ (t₀ : List ℕ) (d₀ : ℝ) (tour : List ℕ),
      update_incumbent (some (t₀, d₀)) tour d₀ = some (t₀, d₀)) ∧
    ∃ l₁ l₂, bfEvaluated start_vertex expired perms 0 = l₁ ++ t :: l₂ ∧
      calculate_tour_distance t coordinates = some d ∧
      ∀ tour ∈ l₁, ∀ du, calculate_tour_distance tour coordinates = some du →
        d < du := by
  constructor
  · intro t₀ d₀ tour
    simp [update_incumbent]
  · rcases bfLoop_first coordinates start_vertex expired perms 0 none t d h with
      ⟨habs, _⟩ | ⟨l₁, l₂, hEval, hcalc, _, hl₁⟩
    · exact absurd habs (by simp)
    · exact ⟨l₁, l₂, hEval, hcalc, hl₁⟩

/-- Witness for C7 on a concrete single-candidate run. -/
theorem claim_C7_first_found_wins_witness :
    bfLoop demoA 1 neverExpired [[2]] 0 none = some (some ([1, 2], demoDist)) ∧
    (∀ (t₀ : List ℕ) (d₀ : ℝ) (tour : List ℕ),
      update_incumbent (some (t₀, d₀)) tour d₀ = some (t₀, d₀)) :=
  ⟨rfl, (claim_C7_first_found_wins demoA 1 neverExpired [[2]] [1, 2] demoDist rfl).1⟩

/-- C1: if the clock never reports the budget exceeded (the enumeration
completes) and the map has at least two vertices, the returned pair is a
global optimum — no permutation of the keys of the map has a strictly smaller
tour length, even though only anchored orderings are enumerated. -/
theorem claim_C1_global_optimum (coordinates : Coords) (expired : ℕ → Bool)
    (hlen : 2 ≤ (keys coordinates).length) (hexp : ∀ c, expired c = false) :
    ∃ t d, brute_force_tsp coordinates expired = some (t, d) ∧
      ∀ (p : List ℕ) (dp : ℝ), p.Perm (keys coordinates) →
        calculate_tour_distance p coordinates = some dp → d ≤ dp := by
  have hsklen : (sortedKeys coordinates).length = (keys coordinates).length :=
    (sortedKeys_perm coordinates).length_eq
  cases hsk : sortedKeys coordinates with
  | nil =>
      rw [hsk] at hsklen
      simp at hsklen
      omega
  | cons start remaining =>
      cases remaining with
      | nil =>
          rw [hsk] at hsklen
          simp at hsklen
          omega
      | cons r1 rrest =>
          have hev := perms_evaluable coordinates start r1 rrest hsk
          obtain ⟨r, hr⟩ := bfLoop_isSome coordinates start expired
            (permsLex (r1 :: rrest).length (r1 :: rrest)) 0 none hev
          cases r with
          | none =>
              exfalso
              have hempty := bfLoop_none_of_result_none coordinates start expired _ 0 hr
              rw [bfEvaluated_all start expired hexp _ 0] at hempty
              have hl := length_permsLex (r1 :: rrest).length (r1 :: rrest) rfl
              cases hperms : permsLex (r1 :: rrest).length (r1 :: rrest) with
              | nil =>
                  rw [hperms] at hl
                  simp only [List.length_nil] at hl
                  have := Nat.factorial_pos (r1 :: rrest).length
                  omega
              | cons p ps =>
                  rw [hperms] at hempty
                  simp at hempty
          | some pair =>
              obtain ⟨t, d⟩ := pair
              refine ⟨t, d, ?_, ?_⟩
              · rw [brute_force_tsp_main coordinates expired start r1 rrest hsk, hr]
                rfl
              · intro p dp hpperm hpd
                have hpmem : ∀ v ∈ p, v ∈ keys coordinates :=
                  fun v hv => hpperm.mem_iff.mp hv
                rw [calculate_tour_distance_eq coordinates p hpmem,
                  Option.some.injEq] at hpd
                have hstartk : start ∈ keys coordinates :=
                  mem_keys_of_mem_sortedKeys coordinates start (by rw [hsk]; simp)
                have hstartp : start ∈ p := hpperm.mem_iff.mpr hstartk
                obtain ⟨k, q, hrot⟩ := exists_rotation_head start p hstartp
                have hq : (start :: q).Perm (start :: r1 :: rrest) := by
                  rw [← hrot, ← hsk]
                  exact (List.rotate_perm p k).trans
                    (hpperm.trans (sortedKeys_perm coordinates).symm)
                have hq' : q.Perm (r1 :: rrest) := hq.cons_inv
                have hqmem : q ∈ permsLex (r1 :: rrest).length (r1 :: rrest) :=
                  (mem_permsLex _ _ q rfl).mpr hq'
                have hcand : (start :: q) ∈ bfEvaluated start expired
                    (permsLex (r1 :: rrest).length (r1 :: rrest)) 0 := by
                  rw [bfEvaluated_all start expired hexp _ 0]
                  exact List.mem_map.mpr ⟨q, hqmem, rfl⟩
                have hqmemk : ∀ v ∈ start :: q, v ∈ keys coordinates := by
                  intro v hv
                  refine mem_keys_of_mem_sortedKeys coordinates v ?_
                  rw [hsk]
                  exact hq.mem_iff.mp hv
                have hqbridge := calculate_tour_distance_eq coordinates (start :: q) hqmemk
                have hle := (bfLoop_min coordinates start expired _ 0 none t d hr).2
                  (start :: q) hcand
                  (tourLength_spec (getCoord coordinates) (start :: q)) hqbridge
                have hchain : tourLength_spec (getCoord coordinates) (start :: q) = dp := by
                  rw [tourLength_spec_eq_cyclicLength, ← hrot, cyclicLength_rotate,
                    ← tourLength_spec_eq_cyclicLength, hpd]
                rw [← hchain]
                exact hle

/-- Witness for C1 on a concrete two-vertex instance. -/
theorem claim_C1_global_optimum_witness :
    2 ≤ (keys demoA).length ∧
    ∃ t d, brute_force_tsp demoA neverExpired = some (t, d) ∧
      ∀ (p : List ℕ) (dp : ℝ), p.Perm (keys demoA) →
        calculate_tour_distance p demoA = some dp → d ≤ dp :=
  ⟨by decide, claim_C1_global_optimum demoA neverExpired (by decide) (fun _ => rfl)⟩
